import Mathlib

set_option maxRecDepth 40000

/-!
Formal model of the nth-prime computer (`PA1.py`): three primality
detectors (Wilson, trial division, Miller–Rabin), an upper-bound
estimator for the nth prime, and a bound-driven linear scan that finds
the nth prime with any detector.

Conventions of the embedding:
* Python integers are `ℤ`; loops are structural recursions (with an
  explicit fuel argument where the Python loop counts up, always called
  with provably sufficient fuel).
* Python's floating-point `math.log`/`math.ceil` in the bound estimator
  are modelled by exact real `Real.log` and `Int.ceil`; that branch is
  therefore `noncomputable`, and nothing else is.
* A detector verdict is the returned integer (`1` prime, `0` not);
  the finder tests Python truthiness, i.e. `≠ 0`.
* `random.randrange(2, n - 1)` inside Miller–Rabin is modelled by an
  explicit stream `rand : ℕ → ℤ` of witness draws, round `i` using
  `rand i`; theorems restrict it to the range `[2, n - 2]` that
  `randrange` guarantees.
* Exceptions are explicit: `Option` for the list-index error of
  `upper_bound_nth_prime`, and a dedicated result type for the finder's
  `ValueError` / `RuntimeError`.
-/

/-- Search upward from `j` for the largest value whose square is `≤ n`;
`fuel` bounds the number of steps (callers pass enough). -/
def isqrtAux (n : ℕ) : ℕ → ℕ → ℕ
  | 0, j => j
  | fuel + 1, j => if (j + 1) * (j + 1) ≤ n then isqrtAux n fuel (j + 1) else j

/-- Structural model of Python's `math.isqrt` (floor square root). -/
def isqrt (n : ℕ) : ℕ := isqrtAux n n 0

/-- The running product `res = res * i % k` of `wilson_is_prime`'s loop
`for i in range(1, k)`, after processing `i = 1, …, m`; `none` records
that the loop early-returned `0` because `res` became `0`. -/
def wilsonProd (k : ℕ) : ℕ → Option ℕ
  | 0 => some 1
  | i + 1 =>
    match wilsonProd k i with
    | none => none
    | some res =>
      let res2 := res * (i + 1) % k
      if res2 = 0 then none else some res2

/-- `wilson_is_prime` from `PA1.py`: Wilson's-theorem primality test,
returning `1` if prime and `0` otherwise. -/
def wilson_is_prime (k : ℤ) : ℤ :=
  if k < 2 then 0
  else if k = 2 then 1
  else
    match wilsonProd k.toNat (k.toNat - 1) with
    | none => 0
    | some res => if (res : ℤ) = (k - 1) % k then 1 else 0

/-- The `while i <= limit` loop of `trial_division_is_prime`, testing odd
divisors `i, i + 2, …`; `fuel` bounds the number of iterations (the
caller passes enough fuel for the loop to run to completion). -/
def tdLoop (k limit : ℤ) : ℕ → ℤ → ℤ
  | 0, _ => 1
  | fuel + 1, i =>
    if i ≤ limit then
      if k % i = 0 then 0 else tdLoop k limit fuel (i + 2)
    else 1

/-- `trial_division_is_prime` from `PA1.py`: deterministic `√k` trial
division, returning `1` if prime and `0` otherwise. -/
def trial_division_is_prime (k : ℤ) : ℤ :=
  if k < 2 then 0
  else if k = 2 ∨ k = 3 then 1
  else if k % 2 = 0 then 0
  else tdLoop k (isqrt k.toNat) (isqrt k.toNat) 3

/-- The fixed small-prime list of `miller_rabin_is_prime`. -/
def smallPrimesZ : List ℤ := [2, 3, 5, 7, 11, 13, 17, 19, 23, 29]

/-- The `while d % 2 == 0: d //= 2; s += 1` decomposition loop of
`miller_rabin_is_prime`, writing the input as `d * 2 ^ s` with `d` odd;
`fuel` bounds the iterations (callers pass the input itself, which is
always enough). -/
def evenSplit : ℕ → ℕ → ℕ × ℕ
  | 0, d => (d, 0)
  | fuel + 1, d =>
    if d % 2 = 0 then
      let p := evenSplit fuel (d / 2)
      (p.1, p.2 + 1)
    else (d, 0)

/-- The squaring loop `for _ in range(s - 1)` of `_mr_try_composite`:
repeatedly square `x` mod `n`, returning `false` (inconclusive) as soon
as `x` becomes `n - 1`, and `true` (composite proven) if the loop ends. -/
def mrSquare (n : ℤ) : ℤ → ℕ → Bool
  | _, 0 => true
  | x, t + 1 =>
    let x2 := x * x % n
    if x2 = n - 1 then false else mrSquare n x2 t

/-- `_mr_try_composite` from `PA1.py`: does witness `a` prove `n`
composite, given `n - 1 = d * 2 ^ s`? -/
def mr_try_composite (a : ℤ) (d : ℕ) (n : ℤ) (s : ℕ) : Bool :=
  let x := a ^ d % n
  if x = 1 ∨ x = n - 1 then false
  else mrSquare n x (s - 1)

/-- The witness loop `for _ in range(rounds)` of `miller_rabin_is_prime`;
round number `idx` draws the witness `rand idx`. -/
def mrRounds (rand : ℕ → ℤ) (d : ℕ) (n : ℤ) (s : ℕ) : ℕ → ℕ → ℤ
  | _, 0 => 1
  | idx, r + 1 =>
    if mr_try_composite (rand idx) d n s then 0
    else mrRounds rand d n s (idx + 1) r

/-- `miller_rabin_is_prime` from `PA1.py`: probabilistic Miller–Rabin
test with an explicit stream of witness draws, returning `1` for
probably prime and `0` for composite. -/
def miller_rabin_is_prime (rand : ℕ → ℤ) (n : ℤ) (rounds : ℕ) : ℤ :=
  if n < 2 then 0
  else
    match smallPrimesZ.find? (fun p => decide (n % p = 0)) with
    | some p => if n = p then 1 else 0
    | none =>
      let m := (n - 1).toNat
      let ds := evenSplit m m
      mrRounds rand ds.1 n ds.2 0 rounds

/-- The `small_bounds` table of `upper_bound_nth_prime`. -/
def small_bounds : List ℤ := [2, 3, 5, 7, 11]

/-- Python list indexing `l[i]` with negative-index wrap-around;
`none` models the `IndexError`. -/
def pyIndex (l : List ℤ) (i : ℤ) : Option ℤ :=
  let j := if i < 0 then i + l.length else i
  if 0 ≤ j ∧ j < l.length then l[j.toNat]? else none

/-- `upper_bound_nth_prime` from `PA1.py`: table lookup for `n < 6`,
Dusart-style bound `⌈n (ln n + ln ln n)⌉` otherwise (the floating-point
arithmetic of the source is modelled by exact reals). -/
noncomputable def upper_bound_nth_prime (n : ℤ) : Option ℤ :=
  if n < 6 then pyIndex small_bounds (n - 1)
  else some ⌈(n : ℝ) * (Real.log n + Real.log (Real.log n))⌉

/-- The default `upper_bound_func` argument of `nth_prime_via_detector`,
i.e. `upper_bound_nth_prime` as a total function (it never raises for
the arguments `n ≥ 2` the finder passes it). -/
noncomputable def ubDefault (n : ℤ) : ℤ := (upper_bound_nth_prime n).getD 0

/-- Outcome of `nth_prime_via_detector`: a returned prime, or one of the
two exceptions it raises. -/
inductive FinderResult where
  | ok (m : ℤ)
  | valueError
  | runtimeError
  deriving DecidableEq

/-- The scan loop `for m in range(2, B + 1)` of `nth_prime_via_detector`:
`steps` iterations remaining, current candidate `m`, primes counted so
far `count`; falling off the range raises `RuntimeError`. -/
def findScan (det : ℤ → ℤ) (n : ℤ) : ℕ → ℤ → ℤ → FinderResult
  | 0, _, _ => .runtimeError
  | steps + 1, m, count =>
    if det m ≠ 0 then
      if count + 1 = n then .ok m
      else findScan det n steps (m + 1) (count + 1)
    else findScan det n steps (m + 1) count

/-- `nth_prime_via_detector` from `PA1.py`: compute the nth prime using
the provided detector and upper-bound function. -/
def nth_prime_via_detector (n : ℤ) (det : ℤ → ℤ) (ub : ℤ → ℤ) : FinderResult :=
  if n ≤ 0 then .valueError
  else if n = 1 then .ok 2
  else findScan det n ((ub n - 1).toNat) 2 0

/-- The consecutive integers `a, a + 1, …, a + len - 1`. -/
def intRange : ℤ → ℕ → List ℤ
  | _, 0 => []
  | a, len + 1 => a :: intRange (a + 1) len

/-- How many elements of `l` the detector classifies as prime
(Python truthiness: verdict `≠ 0`). -/
def hitCount (det : ℤ → ℤ) (l : List ℤ) : ℕ :=
  l.countP (fun m => decide (det m ≠ 0))

/-- How many of the integers `2, …, B` (the finder's scan range) the
detector classifies as prime. -/
def primesFound (det : ℤ → ℤ) (B : ℤ) : ℕ :=
  hitCount det (intRange 2 (B - 1).toNat)

/-! ### Correctness of `isqrt` -/

theorem isqrtAux_eq (n : ℕ) : ∀ (fuel j : ℕ), j * j ≤ n → Nat.sqrt n ≤ j + fuel →
    isqrtAux n fuel j = Nat.sqrt n := by
  intro fuel
  induction fuel with
  | zero =>
    intro j hj hf
    have h1 : j ≤ Nat.sqrt n := Nat.le_sqrt.mpr hj
    have h2 : Nat.sqrt n ≤ j := by simpa using hf
    simp only [isqrtAux]
    omega
  | succ fuel ih =>
    intro j hj hf
    by_cases h : (j + 1) * (j + 1) ≤ n
    · rw [isqrtAux, if_pos h]
      exact ih (j + 1) h (by omega)
    · rw [isqrtAux, if_neg h]
      have h1 : j ≤ Nat.sqrt n := Nat.le_sqrt.mpr hj
      have h2 : ¬(j + 1 ≤ Nat.sqrt n) := fun hc => h (Nat.le_sqrt.mp hc)
      omega

theorem isqrt_eq (n : ℕ) : isqrt n = Nat.sqrt n :=
  isqrtAux_eq n n 0 (by simp) (by simpa using Nat.sqrt_le_self n)

/-! ### The Wilson detector -/

theorem wilsonProd_eq (k : ℕ) (hk : 2 ≤ k) : ∀ m : ℕ,
    wilsonProd k m =
      if m.factorial % k = 0 then none else some (m.factorial % k) := by
  intro m
  induction m with
  | zero =>
    have : (1:ℕ) % k = 1 := Nat.mod_eq_of_lt (by omega)
    simp [wilsonProd, Nat.factorial, this]
  | succ i ih =>
    rw [wilsonProd, ih]
    by_cases h : i.factorial % k = 0
    · have hd : k ∣ i.factorial := Nat.dvd_of_mod_eq_zero h
      have hd2 : (i + 1).factorial % k = 0 := by
        rw [Nat.factorial_succ]
        exact Nat.mod_eq_zero_of_dvd (hd.mul_left (i + 1))
      simp [h, hd2]
    · have hmul : i.factorial % k * (i + 1) % k = (i + 1).factorial % k := by
        rw [Nat.mod_mul_mod, Nat.factorial_succ, Nat.mul_comm i.factorial (i + 1)]
      rw [if_neg h]
      dsimp only
      rw [hmul]

theorem wilson_zero_or_one (k : ℤ) : wilson_is_prime k = 0 ∨ wilson_is_prime k = 1 := by
  simp only [wilson_is_prime]
  split_ifs
  · exact Or.inl rfl
  · exact Or.inr rfl
  · cases wilsonProd k.toNat (k.toNat - 1) with
    | none => exact Or.inl rfl
    | some r =>
      dsimp only
      split_ifs
      · exact Or.inr rfl
      · exact Or.inl rfl

/-- Wilson's theorem, phrased for the residue the source compares against. -/
theorem wilson_nat_iff (kn : ℕ) (h3 : 3 ≤ kn) :
    (kn - 1).factorial % kn = kn - 1 ↔ Nat.Prime kn := by
  haveI : NeZero kn := ⟨by omega⟩
  rw [Nat.prime_iff_fac_equiv_neg_one (by omega)]
  have hcast : ((kn - 1 : ℕ) : ZMod kn) = -1 := by
    rw [Nat.cast_sub (show 1 ≤ kn by omega), ZMod.natCast_self]
    simp
  constructor
  · intro h
    rw [← ZMod.natCast_mod, h, hcast]
  · intro h
    have h1 : (((kn - 1).factorial % kn : ℕ) : ZMod kn) = ((kn - 1 : ℕ) : ZMod kn) := by
      rw [ZMod.natCast_mod, h, hcast]
    have ha := ZMod.val_cast_of_lt
      (a := (kn - 1).factorial % kn) (Nat.mod_lt _ (show 0 < kn by omega))
    have hb := ZMod.val_cast_of_lt (a := kn - 1) (show kn - 1 < kn by omega)
    rw [h1, hb] at ha
    exact ha.symm

/-- For prime inputs the early exit on a zero residue never fires. -/
theorem wilson_no_early_exit (k : ℤ) (h2 : 2 ≤ k) (hp : Nat.Prime k.toNat) :
    wilsonProd k.toNat (k.toNat - 1) ≠ none := by
  rw [wilsonProd_eq k.toNat (by omega)]
  have hnd : ¬ k.toNat ∣ (k.toNat - 1).factorial := by
    rw [Nat.Prime.dvd_factorial hp]
    omega
  rw [if_neg (fun h => hnd (Nat.dvd_of_mod_eq_zero h))]
  simp

theorem wilson_eq_one_iff (k : ℤ) :
    wilson_is_prime k = 1 ↔ 2 ≤ k ∧ Nat.Prime k.toNat := by
  by_cases hk : k < 2
  · simp only [wilson_is_prime, if_pos hk]
    constructor
    · intro h; norm_num at h
    · rintro ⟨h, -⟩; omega
  · by_cases hk2 : k = 2
    · subst hk2
      simp only [wilson_is_prime, if_neg hk, if_pos rfl]
      constructor
      · intro _; exact ⟨by norm_num, by decide⟩
      · intro _; rfl
    · have h3 : 3 ≤ k := by omega
      have h3n : 3 ≤ k.toNat := by omega
      simp only [wilson_is_prime, if_neg hk, if_neg hk2]
      rw [wilsonProd_eq _ (by omega)]
      have hmod : (k - 1) % k = k - 1 := Int.emod_eq_of_lt (by omega) (by omega)
      by_cases hfac : (k.toNat - 1).factorial % k.toNat = 0
      · rw [if_pos hfac]
        dsimp only
        constructor
        · intro h; norm_num at h
        · rintro ⟨-, hp⟩
          exfalso
          have hdvd : k.toNat ∣ (k.toNat - 1).factorial := Nat.dvd_of_mod_eq_zero hfac
          rw [Nat.Prime.dvd_factorial hp] at hdvd
          omega
      · rw [if_neg hfac]
        dsimp only
        rw [hmod]
        have hsub : ((k.toNat - 1 : ℕ) : ℤ) = k - 1 := by
          rw [Nat.cast_sub (show 1 ≤ k.toNat by omega)]
          omega
        have hiff : (((k.toNat - 1).factorial % k.toNat : ℕ) : ℤ) = k - 1 ↔
            (k.toNat - 1).factorial % k.toNat = k.toNat - 1 := by
          rw [← hsub, Nat.cast_inj]
        constructor
        · intro h
          have heq : (((k.toNat - 1).factorial % k.toNat : ℕ) : ℤ) = k - 1 := by
            by_contra hne
            rw [if_neg hne] at h
            norm_num at h
          exact ⟨by omega, (wilson_nat_iff _ h3n).mp (hiff.mp heq)⟩
        · rintro ⟨-, hp⟩
          rw [if_pos (hiff.mpr ((wilson_nat_iff _ h3n).mpr hp))]

/-! ### The trial-division detector -/

theorem tdLoop_zero_or_one (k limit : ℤ) :
    ∀ (fuel : ℕ) (i : ℤ), tdLoop k limit fuel i = 0 ∨ tdLoop k limit fuel i = 1 := by
  intro fuel
  induction fuel with
  | zero => intro i; exact Or.inr rfl
  | succ fuel ih =>
    intro i
    simp only [tdLoop]
    split_ifs
    · exact Or.inl rfl
    · exact ih (i + 2)
    · exact Or.inr rfl

theorem tdLoop_eq_one_iff (k limit : ℤ) :
    ∀ (fuel : ℕ) (i : ℤ), limit < i + 2 * (fuel : ℤ) →
      (tdLoop k limit fuel i = 1 ↔
        ∀ j : ℤ, i ≤ j → j ≤ limit → j % 2 = i % 2 → ¬ j ∣ k) := by
  intro fuel
  induction fuel with
  | zero =>
    intro i hf
    simp only [tdLoop]
    constructor
    · intro _ j hj1 hj2 _ _
      simp only [Nat.cast_zero] at hf
      omega
    · intro _; trivial
  | succ fuel ih =>
    intro i hf
    simp only [tdLoop]
    by_cases hle : i ≤ limit
    · rw [if_pos hle]
      by_cases hmod : k % i = 0
      · rw [if_pos hmod]
        constructor
        · intro h; norm_num at h
        · intro h
          exact absurd (Int.dvd_of_emod_eq_zero hmod) (h i le_rfl hle rfl)
      · rw [if_neg hmod]
        rw [ih (i + 2) (by push_cast at hf ⊢; omega)]
        constructor
        · intro h j hj1 hj2 hj3 hdvd
          by_cases hji : j = i
          · subst hji; exact hmod (Int.emod_eq_zero_of_dvd hdvd)
          · exact h j (by omega) hj2 (by omega) hdvd
        · intro h j hj1 hj2 hj3 hdvd
          exact h j (by omega) hj2 (by omega) hdvd
    · rw [if_neg hle]
      constructor
      · intro _ j hj1 hj2 _ _; omega
      · intro _; rfl

theorem trial_zero_or_one (k : ℤ) :
    trial_division_is_prime k = 0 ∨ trial_division_is_prime k = 1 := by
  simp only [trial_division_is_prime]
  split_ifs
  · exact Or.inl rfl
  · exact Or.inr rfl
  · exact Or.inl rfl
  · exact tdLoop_zero_or_one _ _ _ _

theorem trial_eq_one_iff (k : ℤ) :
    trial_division_is_prime k = 1 ↔ 2 ≤ k ∧ Nat.Prime k.toNat := by
  simp only [trial_division_is_prime]
  by_cases h1 : k < 2
  · rw [if_pos h1]
    constructor
    · intro h; norm_num at h
    · rintro ⟨h, -⟩; omega
  · rw [if_neg h1]
    by_cases h23 : k = 2 ∨ k = 3
    · rw [if_pos h23]
      rcases h23 with h | h <;> subst h <;>
        exact ⟨fun _ => ⟨by norm_num, by decide⟩, fun _ => rfl⟩
    · rw [if_neg h23]
      have h4 : 4 ≤ k := by omega
      by_cases hev : k % 2 = 0
      · rw [if_pos hev]
        constructor
        · intro h; norm_num at h
        · rintro ⟨-, hp⟩
          exfalso
          have h2 : (2:ℕ) ∣ k.toNat := by omega
          rcases Nat.Prime.eq_one_or_self_of_dvd hp 2 h2 with h | h <;> omega
      · rw [if_neg hev]
        have hodd : k % 2 = 1 := by omega
        have hcast : (k.toNat : ℤ) = k := Int.toNat_of_nonneg (by omega)
        rw [tdLoop_eq_one_iff k _ (isqrt k.toNat) 3
          (by have := Int.natCast_nonneg (isqrt k.toNat); omega)]
        constructor
        · intro h
          refine ⟨by omega, Nat.prime_def_le_sqrt.mpr ⟨by omega, ?_⟩⟩
          intro m hm2 hmsqrt hmdvd
          by_cases hmev : m % 2 = 0
          · have h2m : (2:ℕ) ∣ k.toNat := (Nat.dvd_of_mod_eq_zero hmev).trans hmdvd
            omega
          · have hm3 : 3 ≤ m := by omega
            have hjdvd : (m : ℤ) ∣ k := by
              rw [← hcast]
              exact_mod_cast hmdvd
            refine h (m : ℤ) (by exact_mod_cast hm3) ?_ (by omega) hjdvd
            rw [isqrt_eq]
            exact_mod_cast hmsqrt
        · rintro ⟨-, hp⟩
          intro j hj3 hjle hjpar hjdvd
          have hj0 : (0:ℤ) ≤ j := by omega
          have hjd : j.toNat ∣ k.toNat := by
            have hz : (j.toNat : ℤ) ∣ (k.toNat : ℤ) := by
              rw [Int.toNat_of_nonneg hj0, hcast]; exact hjdvd
            exact_mod_cast hz
          refine (Nat.prime_def_le_sqrt.mp hp).2 j.toNat (by omega) ?_ hjd
          rw [isqrt_eq] at hjle
          omega

/-! ### The Miller–Rabin detector -/

theorem evenSplit_spec : ∀ (fuel d : ℕ), 1 ≤ d → d ≤ fuel →
    (evenSplit fuel d).1 % 2 = 1 ∧ (evenSplit fuel d).1 * 2 ^ (evenSplit fuel d).2 = d := by
  intro fuel
  induction fuel with
  | zero => intro d h1 h2; omega
  | succ fuel ih =>
    intro d h1 h2
    by_cases h : d % 2 = 0
    · simp only [evenSplit, if_pos h]
      obtain ⟨o, e⟩ := ih (d / 2) (by omega) (by omega)
      refine ⟨o, ?_⟩
      dsimp only
      rw [pow_succ, ← Nat.mul_assoc, e]
      omega
    · simp only [evenSplit, if_neg h]
      exact ⟨by omega, by simp⟩

theorem mrRounds_zero_or_one (rand : ℕ → ℤ) (d : ℕ) (n : ℤ) (s : ℕ) :
    ∀ (r idx : ℕ), mrRounds rand d n s idx r = 0 ∨ mrRounds rand d n s idx r = 1 := by
  intro r
  induction r with
  | zero => intro idx; exact Or.inr rfl
  | succ r ih =>
    intro idx
    simp only [mrRounds]
    split_ifs
    · exact Or.inl rfl
    · exact ih (idx + 1)

theorem mr_zero_or_one (rand : ℕ → ℤ) (k : ℤ) (rounds : ℕ) :
    miller_rabin_is_prime rand k rounds = 0 ∨ miller_rabin_is_prime rand k rounds = 1 := by
  simp only [miller_rabin_is_prime]
  split_ifs with h
  · exact Or.inl rfl
  · cases hf : smallPrimesZ.find? (fun p => decide (k % p = 0)) with
    | some p =>
      dsimp only
      split_ifs
      · exact Or.inr rfl
      · exact Or.inl rfl
    | none =>
      dsimp only
      exact mrRounds_zero_or_one _ _ _ _ _ _

/-- The small-prime fast path decides membership in the small-prime list. -/
theorem mr_fastpath (n : ℤ) (rand : ℕ → ℤ) (rounds : ℕ) (h2 : 2 ≤ n)
    (hdvd : ∃ p ∈ smallPrimesZ, p ∣ n) :
    miller_rabin_is_prime rand n rounds = if n ∈ smallPrimesZ then 1 else 0 := by
  simp only [miller_rabin_is_prime, if_neg (by omega : ¬ n < 2)]
  cases hf : smallPrimesZ.find? (fun p => decide (n % p = 0)) with
  | none =>
    exfalso
    obtain ⟨p, hmem, hpdvd⟩ := hdvd
    have hnone := List.find?_eq_none.mp hf p hmem
    simp only [decide_eq_true_eq] at hnone
    exact hnone (Int.emod_eq_zero_of_dvd hpdvd)
  | some q =>
    dsimp only
    have hq : n % q = 0 := by simpa using List.find?_some hf
    have hqmem : q ∈ smallPrimesZ := List.mem_of_find?_eq_some hf
    by_cases hnq : n = q
    · rw [if_pos hnq, if_pos (hnq ▸ hqmem)]
    · have hnmem : n ∉ smallPrimesZ := by
        intro hnmem
        have hall : ∀ x ∈ smallPrimesZ, 2 ≤ x ∧ Nat.Prime x.toNat := by decide
        have hq2 : 2 ≤ q := (hall q hqmem).1
        have hnp : Nat.Prime n.toNat := (hall n hnmem).2
        have hqd : q ∣ n := Int.dvd_of_emod_eq_zero hq
        have hqdn : q.toNat ∣ n.toNat := by
          have hz : (q.toNat : ℤ) ∣ (n.toNat : ℤ) := by
            rw [Int.toNat_of_nonneg (by omega), Int.toNat_of_nonneg (by omega)]
            exact hqd
          exact_mod_cast hz
        rcases Nat.Prime.eq_one_or_self_of_dvd hnp q.toNat hqdn with h | h
        · omega
        · exact hnq (by omega)
      rw [if_neg hnq, if_neg hnmem]

theorem intCast_inj_of_lt (p : ℕ) {x y : ℤ} (hx0 : 0 ≤ x) (hx : x < (p:ℤ))
    (hy0 : 0 ≤ y) (hy : y < (p:ℤ)) (h : (x : ZMod p) = (y : ZMod p)) : x = y := by
  rw [ZMod.intCast_eq_intCast_iff'] at h
  rwa [Int.emod_eq_of_lt hx0 hx, Int.emod_eq_of_lt hy0 hy] at h

theorem neg_one_cast_eq (p : ℕ) : (((p:ℤ) - 1 : ℤ) : ZMod p) = -1 := by
  push_cast
  simp

/-- If `n` is prime and `x` is a nontrivial `2 ^ (t + 1)`-th root of unity mod
`n`, the squaring chain must pass through `n - 1`, so the loop reports
"inconclusive". -/
theorem mrSquare_of_prime (p : ℕ) [hp : Fact p.Prime] :
    ∀ (t : ℕ) (x : ℤ), 0 ≤ x → x < (p:ℤ) →
      (x : ZMod p) ^ 2 ^ (t + 1) = 1 → (x : ZMod p) ≠ 1 → (x : ZMod p) ≠ -1 →
      mrSquare (p:ℤ) x t = false := by
  intro t
  induction t with
  | zero =>
    intro x hx0 hxp h1 hne1 hnen1
    exfalso
    have hsq : (x : ZMod p) * (x : ZMod p) = 1 := by
      have h2 : (x : ZMod p) ^ 2 = 1 := by simpa using h1
      simpa [sq] using h2
    rcases mul_self_eq_one_iff.mp hsq with h | h
    · exact hne1 h
    · exact hnen1 h
  | succ t ih =>
    intro x hx0 hxp h1 hne1 hnen1
    have hp2 : 2 ≤ p := hp.out.two_le
    have hppos : (0:ℤ) < (p:ℤ) := by exact_mod_cast (by omega : 0 < p)
    simp only [mrSquare]
    have hx2cast : ((x * x % (p:ℤ) : ℤ) : ZMod p) = (x : ZMod p) * (x : ZMod p) := by
      rw [ZMod.intCast_mod]
      push_cast
      ring
    by_cases hx2 : x * x % (p:ℤ) = (p:ℤ) - 1
    · rw [if_pos hx2]
    · rw [if_neg hx2]
      apply ih (x * x % (p:ℤ)) (Int.emod_nonneg _ (by omega)) (Int.emod_lt_of_pos _ hppos)
      · rw [hx2cast, ← sq, ← pow_mul]
        rw [show 2 * 2 ^ (t + 1) = 2 ^ (t + 1 + 1) by ring]
        exact h1
      · rw [hx2cast]
        intro hcontra
        rcases mul_self_eq_one_iff.mp hcontra with h | h
        · exact hne1 h
        · exact hnen1 h
      · intro hc
        apply hx2
        exact intCast_inj_of_lt p (Int.emod_nonneg _ (by omega)) (Int.emod_lt_of_pos _ hppos)
          (by omega) (by omega) (by rw [hc, neg_one_cast_eq p])

/-- A Miller–Rabin witness in `[2, n - 2]` can never prove a prime composite. -/
theorem mr_try_composite_of_prime (p : ℕ) [hp : Fact p.Prime] (a : ℤ) (d s : ℕ)
    (ha2 : 2 ≤ a) (hap : a ≤ (p:ℤ) - 2) (hds : d * 2 ^ s = p - 1) (hs : 1 ≤ s) :
    mr_try_composite a d (p:ℤ) s = false := by
  have hp2 : 2 ≤ p := hp.out.two_le
  have hppos : (0:ℤ) < (p:ℤ) := by exact_mod_cast (by omega : 0 < p)
  have ha0 : (a : ZMod p) ≠ 0 := by
    rw [Ne, ZMod.intCast_zmod_eq_zero_iff_dvd]
    intro hdvd
    have := Int.le_of_dvd (by omega) hdvd
    omega
  have hfermat : (a : ZMod p) ^ (p - 1) = 1 := ZMod.pow_card_sub_one_eq_one ha0
  simp only [mr_try_composite]
  have hxcast : ((a ^ d % (p:ℤ) : ℤ) : ZMod p) = (a : ZMod p) ^ d := by
    rw [ZMod.intCast_mod]
    push_cast
    rfl
  by_cases hx : a ^ d % (p:ℤ) = 1 ∨ a ^ d % (p:ℤ) = (p:ℤ) - 1
  · rw [if_pos hx]
  · rw [if_neg hx]
    push_neg at hx
    obtain ⟨hx1, hxn1⟩ := hx
    apply mrSquare_of_prime p (s - 1) _ (Int.emod_nonneg _ (by omega))
      (Int.emod_lt_of_pos _ hppos)
    · rw [hxcast, ← pow_mul]
      rw [show d * 2 ^ (s - 1 + 1) = p - 1 by rw [show s - 1 + 1 = s by omega]; exact hds]
      exact hfermat
    · intro hc
      apply hx1
      exact intCast_inj_of_lt p (Int.emod_nonneg _ (by omega)) (Int.emod_lt_of_pos _ hppos)
        (by omega) (by omega) (by rw [hc, Int.cast_one])
    · intro hc
      apply hxn1
      exact intCast_inj_of_lt p (Int.emod_nonneg _ (by omega)) (Int.emod_lt_of_pos _ hppos)
        (by omega) (by omega) (by rw [hc, neg_one_cast_eq p])

theorem mrRounds_eq_one (rand : ℕ → ℤ) (d : ℕ) (n : ℤ) (s : ℕ) :
    ∀ (r idx : ℕ), (∀ i, idx ≤ i → i < idx + r → mr_try_composite (rand i) d n s = false) →
      mrRounds rand d n s idx r = 1 := by
  intro r
  induction r with
  | zero => intro idx _; rfl
  | succ r ih =>
    intro idx h
    simp only [mrRounds]
    rw [h idx le_rfl (by omega)]
    simp only [Bool.false_eq_true, if_false]
    exact ih (idx + 1) (fun i hi1 hi2 => h i (by omega) (by omega))

/-- Miller–Rabin never labels a true prime composite, whatever the witness
draws in `[2, p - 2]` are. -/
theorem mr_prime_complete (p : ℕ) (hp : Nat.Prime p) (rounds : ℕ) (rand : ℕ → ℤ)
    (hrand : ∀ i, i < rounds → 2 ≤ rand i ∧ rand i ≤ (p:ℤ) - 2) :
    miller_rabin_is_prime rand (p:ℤ) rounds = 1 := by
  haveI hfact : Fact p.Prime := ⟨hp⟩
  have hp2 : 2 ≤ p := hp.two_le
  simp only [miller_rabin_is_prime, if_neg (show ¬ ((p:ℤ) < 2) by omega)]
  cases hf : smallPrimesZ.find? (fun q => decide ((p:ℤ) % q = 0)) with
  | some q =>
    have hq : (p:ℤ) % q = 0 := by simpa using List.find?_some hf
    have hqmem : q ∈ smallPrimesZ := List.mem_of_find?_eq_some hf
    have hall : ∀ x ∈ smallPrimesZ, 2 ≤ x := by decide
    have hq2 : 2 ≤ q := hall q hqmem
    have hqd : q ∣ (p:ℤ) := Int.dvd_of_emod_eq_zero hq
    have hqdn : q.toNat ∣ p := by
      have hz : (q.toNat : ℤ) ∣ (p:ℤ) := by
        rw [Int.toNat_of_nonneg (by omega)]
        exact hqd
      exact_mod_cast hz
    rcases hp.eq_one_or_self_of_dvd q.toNat hqdn with h | h
    · omega
    · dsimp only
      rw [if_pos (by omega : (p:ℤ) = q)]
  | none =>
    dsimp only
    have hodd : (p:ℤ) % 2 = 1 := by
      have h2 := List.find?_eq_none.mp hf 2 (by decide)
      simp only [decide_eq_true_eq] at h2
      omega
    set m := ((p:ℤ) - 1).toNat with hm
    obtain ⟨ho, he⟩ := evenSplit_spec m m (by omega) le_rfl
    have hds : (evenSplit m m).1 * 2 ^ (evenSplit m m).2 = p - 1 := by
      rw [he]; omega
    have hs1 : 1 ≤ (evenSplit m m).2 := by
      by_contra hs0
      have hz : (evenSplit m m).2 = 0 := by omega
      rw [hz, pow_zero, Nat.mul_one] at he
      omega
    apply mrRounds_eq_one
    intro i hi1 hi2
    obtain ⟨hr1, hr2⟩ := hrand i (by omega)
    exact mr_try_composite_of_prime p (rand i) _ _ hr1 hr2 hds hs1

/-! ### The nth-prime finder's scan loop -/

theorem hitCount_nil (det : ℤ → ℤ) : hitCount det [] = 0 := rfl

theorem hitCount_cons (det : ℤ → ℤ) (a : ℤ) (l : List ℤ) :
    hitCount det (a :: l) = (if det a ≠ 0 then 1 else 0) + hitCount det l := by
  simp only [hitCount, List.countP_cons]
  by_cases h : det a ≠ 0
  · simp [h]
    omega
  · simp [h]

theorem findScan_ne_valueError (det : ℤ → ℤ) (n : ℤ) :
    ∀ (steps : ℕ) (m c : ℤ), findScan det n steps m c ≠ .valueError := by
  intro steps
  induction steps with
  | zero => intro m c h; exact FinderResult.noConfusion h
  | succ steps ih =>
    intro m c
    simp only [findScan]
    split_ifs
    · intro h; exact FinderResult.noConfusion h
    · exact ih (m + 1) (c + 1)
    · exact ih (m + 1) c

theorem findScan_runtimeError_iff (det : ℤ → ℤ) (n : ℤ) :
    ∀ (steps : ℕ) (m c : ℤ), c < n →
      (findScan det n steps m c = .runtimeError ↔
        c + (hitCount det (intRange m steps) : ℤ) < n) := by
  intro steps
  induction steps with
  | zero =>
    intro m c hc
    simp only [findScan, intRange, hitCount_nil]
    constructor
    · intro _; simpa using hc
    · intro _; trivial
  | succ steps ih =>
    intro m c hc
    simp only [findScan, intRange, hitCount_cons]
    by_cases hdet : det m ≠ 0
    · simp only [if_pos hdet]
      by_cases hcount : c + 1 = n
      · rw [if_pos hcount]
        constructor
        · intro h; exact absurd h (by simp)
        · intro h
          exfalso
          have hnn := Int.natCast_nonneg (hitCount det (intRange (m + 1) steps))
          push_cast at h
          omega
      · rw [if_neg hcount, ih (m + 1) (c + 1) (by omega)]
        push_cast
        omega
    · simp only [if_neg hdet]
      rw [ih (m + 1) c hc]
      push_cast
      omega

theorem findScan_ok (det : ℤ → ℤ) (n : ℤ) :
    ∀ (steps : ℕ) (m c q : ℤ), findScan det n steps m c = .ok q →
      det q ≠ 0 ∧ ∃ j : ℕ, j < steps ∧ q = m + j ∧
        c + (hitCount det (intRange m (j + 1)) : ℤ) = n := by
  intro steps
  induction steps with
  | zero => intro m c q h; exact absurd h (by simp [findScan])
  | succ steps ih =>
    intro m c q h
    simp only [findScan] at h
    by_cases hdet : det m ≠ 0
    · rw [if_pos hdet] at h
      by_cases hcount : c + 1 = n
      · rw [if_pos hcount] at h
        have hq : q = m := by cases h; rfl
        subst hq
        refine ⟨hdet, 0, by omega, by simp, ?_⟩
        simp only [intRange, hitCount_cons, hitCount_nil, if_pos hdet]
        push_cast
        omega
      · rw [if_neg hcount] at h
        obtain ⟨hdq, j, hj1, hj2, hj3⟩ := ih (m + 1) (c + 1) q h
        refine ⟨hdq, j + 1, by omega, by push_cast; omega, ?_⟩
        rw [show intRange m (j + 1 + 1) = m :: intRange (m + 1) (j + 1) from rfl,
          hitCount_cons, if_pos hdet]
        push_cast at hj3 ⊢
        omega
    · rw [if_neg hdet] at h
      obtain ⟨hdq, j, hj1, hj2, hj3⟩ := ih (m + 1) c q h
      refine ⟨hdq, j + 1, by omega, by push_cast; omega, ?_⟩
      rw [show intRange m (j + 1 + 1) = m :: intRange (m + 1) (j + 1) from rfl,
        hitCount_cons, if_neg hdet]
      push_cast at hj3 ⊢
      omega

theorem findScan_mono (det : ℤ → ℤ) (n : ℤ) :
    ∀ (steps steps' : ℕ) (m c q : ℤ), steps ≤ steps' →
      findScan det n steps m c = .ok q → findScan det n steps' m c = .ok q := by
  intro steps
  induction steps with
  | zero => intro steps' m c q _ h; exact absurd h (by simp [findScan])
  | succ steps ih =>
    intro steps' m c q hle h
    obtain ⟨steps2, rfl⟩ : ∃ t, steps' = t + 1 := ⟨steps' - 1, by omega⟩
    simp only [findScan] at h ⊢
    by_cases hdet : det m ≠ 0
    · rw [if_pos hdet] at h ⊢
      by_cases hcount : c + 1 = n
      · rw [if_pos hcount] at h ⊢
        exact h
      · rw [if_neg hcount] at h ⊢
        exact ih steps2 (m + 1) (c + 1) q (by omega) h
    · rw [if_neg hdet] at h ⊢
      exact ih steps2 (m + 1) c q (by omega) h

/-! ### Numeric lower bounds on the default bound function -/

theorem exp_le_inv_one_sub (c : ℝ) (h1 : c < 1) :
    Real.exp c ≤ 1 / (1 - c) := by
  have h2 : 1 - c ≤ Real.exp (-c) := by
    have := Real.add_one_le_exp (-c)
    linarith
  have h3 : Real.exp (-c) = (Real.exp c)⁻¹ := Real.exp_neg c
  have h4 : (0:ℝ) < Real.exp c := Real.exp_pos c
  rw [le_div_iff₀ (by linarith : (0:ℝ) < 1 - c)]
  calc Real.exp c * (1 - c) ≤ Real.exp c * (Real.exp c)⁻¹ :=
        mul_le_mul_of_nonneg_left (h3 ▸ h2) (le_of_lt h4)
    _ = 1 := mul_inv_cancel₀ (ne_of_gt h4)

theorem log_six_gt : (1.6931471803 : ℝ) < Real.log 6 := by
  have h2 : (0.6931471803 : ℝ) < Real.log 2 := Real.log_two_gt_d9
  have h3 : (1 : ℝ) < Real.log 3 := by
    rw [Real.lt_log_iff_exp_lt (by norm_num : (0:ℝ) < 3)]
    calc Real.exp 1 < 2.7182818286 := Real.exp_one_lt_d9
      _ < 3 := by norm_num
  have h6 : Real.log 6 = Real.log 2 + Real.log 3 := by
    rw [show (6:ℝ) = 2 * 3 by norm_num, Real.log_mul (by norm_num) (by norm_num)]
  rw [h6]
  linarith

theorem loglog_six_gt : (0.3068528197 : ℝ) < Real.log (Real.log 6) := by
  have h6 : (0:ℝ) < Real.log 6 := lt_trans (by norm_num) log_six_gt
  rw [Real.lt_log_iff_exp_lt h6]
  have h1 : Real.exp 0.3068528197 ≤ 1 / (1 - 0.3068528197) :=
    exp_le_inv_one_sub _ (by norm_num)
  have h2 : (1 : ℝ) / (1 - 0.3068528197) < 1.6931471803 := by norm_num
  linarith [log_six_gt]

theorem log_lower_one_sub_inv (x : ℝ) (hx : 0 < x) : 1 - x⁻¹ ≤ Real.log x := by
  have h := Real.log_le_sub_one_of_pos (inv_pos.mpr hx)
  rw [Real.log_inv] at h
  linarith

theorem log_four_eq : Real.log 4 = 2 * Real.log 2 := by
  rw [show (4:ℝ) = 2 ^ 2 by norm_num, Real.log_pow]
  push_cast
  ring

theorem log_five_ge : (1.5862943606 : ℝ) ≤ Real.log 5 := by
  have h2 : (0.6931471803 : ℝ) < Real.log 2 := Real.log_two_gt_d9
  have h45 : Real.log 4 + Real.log (5/4) = Real.log 5 := by
    rw [← Real.log_mul (by norm_num) (by norm_num)]
    norm_num
  have h54 : (0.2:ℝ) ≤ Real.log (5/4) := by
    have h := log_lower_one_sub_inv (5/4) (by norm_num)
    norm_num at h
    linarith
  have h4 := log_four_eq
  linarith

theorem log_hundred_ge : (4.5588830818 : ℝ) ≤ Real.log 100 := by
  have h2 : (0.6931471803 : ℝ) < Real.log 2 := Real.log_two_gt_d9
  have h5 := log_five_ge
  have h100 : Real.log 100 = 2 * Real.log 2 + 2 * Real.log 5 := by
    rw [show (100:ℝ) = 4 * 25 by norm_num,
      Real.log_mul (by norm_num) (by norm_num),
      show (4:ℝ) = 2 ^ 2 by norm_num, show (25:ℝ) = 5 ^ 2 by norm_num,
      Real.log_pow, Real.log_pow]
    push_cast
    ring
  rw [h100]
  linarith

theorem loglog_hundred_ge : (1.3862943606 : ℝ) ≤ Real.log (Real.log 100) := by
  have h2 : (0.6931471803 : ℝ) < Real.log 2 := Real.log_two_gt_d9
  have hpos : (0:ℝ) < Real.log 100 := by linarith [log_hundred_ge]
  have hmono : Real.log 4 ≤ Real.log (Real.log 100) := by
    rw [Real.log_le_log_iff (by norm_num) hpos]
    linarith [log_hundred_ge]
  rw [log_four_eq] at hmono
  linarith

theorem ub_six_ge : (13:ℤ) ≤ ubDefault 6 := by
  have hval : ubDefault 6 =
      ⌈((6:ℤ) : ℝ) * (Real.log ((6:ℤ):ℝ) + Real.log (Real.log ((6:ℤ):ℝ)))⌉ := by
    norm_num [ubDefault, upper_bound_nth_prime]
  rw [hval]
  have hcast : (((6:ℤ)):ℝ) = (6:ℝ) := by norm_num
  rw [hcast]
  have hlt : (12:ℤ) < ⌈(6:ℝ) * (Real.log 6 + Real.log (Real.log 6))⌉ := by
    rw [Int.lt_ceil]
    push_cast
    linarith [log_six_gt, loglog_six_gt]
  omega

theorem ub_hundred_ge : (541:ℤ) ≤ ubDefault 100 := by
  have hval : ubDefault 100 =
      ⌈((100:ℤ) : ℝ) * (Real.log ((100:ℤ):ℝ) + Real.log (Real.log ((100:ℤ):ℝ)))⌉ := by
    norm_num [ubDefault, upper_bound_nth_prime]
  rw [hval]
  have hcast : (((100:ℤ)):ℝ) = (100:ℝ) := by norm_num
  rw [hcast]
  have hlt : (540:ℤ) < ⌈(100:ℝ) * (Real.log 100 + Real.log (Real.log 100))⌉ := by
    rw [Int.lt_ceil]
    push_cast
    linarith [log_hundred_ge, loglog_hundred_ge]
  omega

/-! ### Counting trial-division hits against the prime-counting function -/

theorem nth_prime_unfold (n : ℤ) (det ub : ℤ → ℤ) (h2 : 2 ≤ n) :
    nth_prime_via_detector n det ub = findScan det n ((ub n - 1).toNat) 2 0 := by
  rw [nth_prime_via_detector, if_neg (by omega), if_neg (by omega)]

theorem hitCount_trial_count : ∀ (len a : ℕ), 2 ≤ a →
    hitCount trial_division_is_prime (intRange (a:ℤ) len) + Nat.count Nat.Prime a
      = Nat.count Nat.Prime (a + len) := by
  intro len
  induction len with
  | zero => intro a _; simp [intRange, hitCount_nil]
  | succ len ih =>
    intro a ha
    rw [show intRange (a:ℤ) (len+1) = (a:ℤ) :: intRange ((a:ℤ)+1) len from rfl,
      hitCount_cons]
    have hcast : ((a:ℤ)+1) = ((a+1 : ℕ) : ℤ) := by push_cast; ring
    rw [hcast]
    have hite : (if trial_division_is_prime (a:ℤ) ≠ 0 then 1 else 0)
        = (if Nat.Prime a then 1 else 0) := by
      rcases trial_zero_or_one (a:ℤ) with h | h
      · have hnp : ¬ Nat.Prime a := by
          intro hp
          have h1 := (trial_eq_one_iff (a:ℤ)).mpr ⟨by exact_mod_cast ha, by simpa using hp⟩
          omega
        simp [h, hnp]
      · have hp : Nat.Prime a := by
          have h2 := (trial_eq_one_iff (a:ℤ)).mp h
          simpa using h2.2
        simp [h, hp]
    rw [hite]
    have hih := ih (a+1) (by omega)
    rw [Nat.count_succ] at hih
    have hq : a + 1 + len = a + (len + 1) := by omega
    rw [hq] at hih
    by_cases hp : Nat.Prime a
    · simp only [if_pos hp] at hih ⊢
      omega
    · simp only [if_neg hp] at hih ⊢
      omega

/-- If the scan with the trial-division detector returns a value, that
value is the nth prime. -/
theorem nth_prime_ok_eq_nth (n : ℤ) (ub : ℤ → ℤ) (q : ℤ) (h1 : 1 ≤ n)
    (h : nth_prime_via_detector n trial_division_is_prime ub = .ok q) :
    q = (Nat.nth Nat.Prime (n - 1).toNat : ℤ) := by
  by_cases hn1 : n = 1
  · subst hn1
    rw [nth_prime_via_detector, if_neg (by norm_num), if_pos rfl] at h
    have hq : q = 2 := by cases h; rfl
    have h0 : Nat.count Nat.Prime 2 = 0 := by decide
    have hn := Nat.nth_count (p := Nat.Prime) (n := 2) (by norm_num)
    rw [h0] at hn
    rw [hq]
    norm_num [hn]
  · have h2 : 2 ≤ n := by omega
    rw [nth_prime_unfold n _ ub h2] at h
    obtain ⟨hdq, j, hj1, hj2, hj3⟩ := findScan_ok _ _ _ _ _ _ h
    have hbr := hitCount_trial_count (j+1) 2 le_rfl
    have hnorm : ((2:ℕ):ℤ) = (2:ℤ) := by norm_num
    rw [hnorm] at hbr
    have hc2 : Nat.count Nat.Prime 2 = 0 := by decide
    rw [hc2] at hbr
    have hq1 : trial_division_is_prime q = 1 := by
      rcases trial_zero_or_one q with h0 | h0
      · exact absurd h0 hdq
      · exact h0
    have hprime : Nat.Prime q.toNat := ((trial_eq_one_iff q).mp hq1).2
    have hq2 : 2 ≤ q := ((trial_eq_one_iff q).mp hq1).1
    have hqt : q.toNat = j + 2 := by omega
    have hcnt1 : (Nat.count Nat.Prime (q.toNat + 1) : ℤ) = n := by
      rw [hqt, show j + 2 + 1 = 2 + (j + 1) by omega]
      omega
    have hsucc : Nat.count Nat.Prime (q.toNat + 1)
        = Nat.count Nat.Prime q.toNat + 1 := by
      rw [Nat.count_succ, if_pos hprime]
    have hnth := Nat.nth_count hprime
    have hidx : (n-1).toNat = Nat.count Nat.Prime q.toNat := by omega
    rw [hidx, hnth]
    omega

/-! ### The claims -/

/-- Claim C1: for every `n ≥ 1`, `nth_prime_via_detector` with the
trial-division detector scans `2..B` in increasing order counting prime
verdicts and the value it returns is the candidate at which the count
first reaches `n`, i.e. the true nth prime; in particular, with the
default bound it returns 13 for `n = 6` and 541 for `n = 100`. -/
theorem claim_C1 :
    (∀ (n : ℤ) (ub : ℤ → ℤ) (q : ℤ), 1 ≤ n →
        nth_prime_via_detector n trial_division_is_prime ub = .ok q →
        q = (Nat.nth Nat.Prime (n - 1).toNat : ℤ)) ∧
    nth_prime_via_detector 6 trial_division_is_prime ubDefault = .ok 13 ∧
    nth_prime_via_detector 100 trial_division_is_prime ubDefault = .ok 541 := by
  refine ⟨fun n ub q h1 h => nth_prime_ok_eq_nth n ub q h1 h, ?_, ?_⟩
  · rw [nth_prime_unfold 6 _ ubDefault (by norm_num)]
    have h13 := ub_six_ge
    exact findScan_mono _ 6 12 _ 2 0 13 (by omega) (by decide)
  · rw [nth_prime_unfold 100 _ ubDefault (by norm_num)]
    have h541 := ub_hundred_ge
    exact findScan_mono _ 100 540 _ 2 0 541 (by omega) (by decide)

theorem claim_C1_witness :
    (1:ℤ) ≤ 6 ∧ (13:ℤ) = (Nat.nth Nat.Prime ((6:ℤ) - 1).toNat : ℤ) :=
  ⟨by norm_num, claim_C1.1 6 (fun _ => 20) 13 (by norm_num) (by decide)⟩

/-- Claim C3: `wilson_is_prime k` returns 1 exactly when `k` is a (positive)
prime, and the early exit on a zero running residue never fires for a prime
input. -/
theorem claim_C3 : ∀ k : ℤ,
    (wilson_is_prime k = 1 ↔ 2 ≤ k ∧ Nat.Prime k.toNat) ∧
    (2 ≤ k → Nat.Prime k.toNat → wilsonProd k.toNat (k.toNat - 1) ≠ none) :=
  fun k => ⟨wilson_eq_one_iff k, fun h2 hp => wilson_no_early_exit k h2 hp⟩

theorem claim_C3_witness :
    wilson_is_prime 7 = 1 ∧ wilsonProd (7:ℤ).toNat ((7:ℤ).toNat - 1) ≠ none :=
  ⟨(claim_C3 7).1.mpr ⟨by norm_num, by decide⟩,
   (claim_C3 7).2 (by norm_num) (by decide)⟩

/-- Claim C4: Miller–Rabin has one-sided error only — for every prime, every
round count, and every witness sequence drawn from `[2, n - 2]`, the verdict
is 1. -/
theorem claim_C4 (p : ℕ) (hp : Nat.Prime p) (rounds : ℕ) (rand : ℕ → ℤ)
    (hrand : ∀ i, i < rounds → 2 ≤ rand i ∧ rand i ≤ (p:ℤ) - 2) :
    miller_rabin_is_prime rand (p:ℤ) rounds = 1 :=
  mr_prime_complete p hp rounds rand hrand

theorem claim_C4_witness :
    miller_rabin_is_prime (fun _ => 2) ((31:ℕ):ℤ) 1 = 1 :=
  claim_C4 31 (by decide) 1 (fun _ => 2) (by decide)

/-- Claim C5 is false as stated: at `k = 961 = 31²`, Wilson and trial
division correctly return 0, but Miller–Rabin with 8 rounds returns 1 when
every witness draw is 439 — an in-range strong liar (439³ ≡ 1 mod 961). -/
theorem claim_C5_counterexample :
    (0:ℤ) ≤ 961 ∧ (961:ℤ) ≤ 10000 ∧ 8 ≤ 8 ∧
    (∀ i : ℕ, i < 8 →
      2 ≤ (fun _ : ℕ => (439:ℤ)) i ∧ (fun _ : ℕ => (439:ℤ)) i ≤ 961 - 2) ∧
    wilson_is_prime 961 = 0 ∧ trial_division_is_prime 961 = 0 ∧
    miller_rabin_is_prime (fun _ => 439) 961 8 = 1 := by decide

/-- Claim C5 (amended): for every `k` in `[0, 10000]`, Wilson and trial
division return the same verdict, unconditionally; and for every
`rounds ≥ 8` and every witness sequence in `[2, k - 2]`, Miller–Rabin
agrees with them whenever `k` is prime, and a composite verdict from
Miller–Rabin is always correct — only a prime verdict on a composite `k`
can disagree (and does, for adversarial witness sequences such as the
counterexample at `k = 961`). -/
theorem claim_C5 : ∀ k : ℤ, 0 ≤ k → k ≤ 10000 →
    wilson_is_prime k = trial_division_is_prime k ∧
    ∀ (rounds : ℕ) (rand : ℕ → ℤ), 8 ≤ rounds →
      (∀ i, i < rounds → 2 ≤ rand i ∧ rand i ≤ k - 2) →
      (wilson_is_prime k = 1 → miller_rabin_is_prime rand k rounds = 1) ∧
      (miller_rabin_is_prime rand k rounds = 0 → wilson_is_prime k = 0) := by
  intro k hk0 hk1
  have hagree : wilson_is_prime k = trial_division_is_prime k := by
    rcases wilson_zero_or_one k with hw | hw <;> rcases trial_zero_or_one k with ht | ht
    · rw [hw, ht]
    · exfalso
      have := (wilson_eq_one_iff k).mpr ((trial_eq_one_iff k).mp ht)
      omega
    · exfalso
      have := (trial_eq_one_iff k).mpr ((wilson_eq_one_iff k).mp hw)
      omega
    · rw [hw, ht]
  refine ⟨hagree, ?_⟩
  intro rounds rand hr hrand
  have hmr : wilson_is_prime k = 1 → miller_rabin_is_prime rand k rounds = 1 := by
    intro hw
    obtain ⟨h2, hp⟩ := (wilson_eq_one_iff k).mp hw
    have hcast : ((k.toNat : ℕ) : ℤ) = k := Int.toNat_of_nonneg (by omega)
    have hres := mr_prime_complete k.toNat hp rounds rand ?_
    · rwa [hcast] at hres
    · intro i hi
      obtain ⟨ha, hb⟩ := hrand i hi
      exact ⟨ha, by omega⟩
  refine ⟨hmr, ?_⟩
  intro hmr0
  rcases wilson_zero_or_one k with hw | hw
  · exact hw
  · exfalso
    have := hmr hw
    omega

theorem claim_C5_witness :
    wilson_is_prime 97 = trial_division_is_prime 97 ∧
    (wilson_is_prime 97 = 1 → miller_rabin_is_prime (fun _ => 2) 97 8 = 1) ∧
    (miller_rabin_is_prime (fun _ => 2) 97 8 = 0 → wilson_is_prime 97 = 0) := by
  obtain ⟨h1, h2⟩ := claim_C5 97 (by norm_num) (by norm_num)
  obtain ⟨h3, h4⟩ := h2 8 (fun _ => 2) (by norm_num) (by decide)
  exact ⟨h1, h3, h4⟩

/-- Claim C6: the finder raises ValueError iff `n ≤ 0` (for every detector
and bound function, so before either is consulted); for `n ≥ 2` it raises
RuntimeError iff the detector confirms fewer than `n` primes among
`2..bound_fn(n)`; in every other case it returns a value. -/
theorem claim_C6 : ∀ (n : ℤ) (det ub : ℤ → ℤ),
    (nth_prime_via_detector n det ub = .valueError ↔ n ≤ 0) ∧
    (2 ≤ n → (nth_prime_via_detector n det ub = .runtimeError ↔
      (primesFound det (ub n) : ℤ) < n)) ∧
    (n = 1 → nth_prime_via_detector n det ub = .ok 2) ∧
    (2 ≤ n → n ≤ (primesFound det (ub n) : ℤ) →
      ∃ m, nth_prime_via_detector n det ub = .ok m) := by
  intro n det ub
  refine ⟨?_, ?_, ?_, ?_⟩
  · by_cases h0 : n ≤ 0
    · rw [nth_prime_via_detector, if_pos h0]
      simp [h0]
    · rw [nth_prime_via_detector, if_neg h0]
      by_cases h1 : n = 1
      · rw [if_pos h1]
        constructor
        · intro hc; exact FinderResult.noConfusion hc
        · intro hc; omega
      · rw [if_neg h1]
        constructor
        · intro hc; exact absurd hc (findScan_ne_valueError _ _ _ _ _)
        · intro hc; omega
  · intro h2
    rw [nth_prime_unfold n det ub h2,
      findScan_runtimeError_iff det n _ 2 0 (by omega)]
    have hpf : primesFound det (ub n) = hitCount det (intRange 2 (ub n - 1).toNat) := rfl
    omega
  · intro h1; subst h1; rfl
  · intro h2 hge
    cases hres : nth_prime_via_detector n det ub with
    | ok m => exact ⟨m, rfl⟩
    | valueError =>
      rw [nth_prime_unfold n det ub h2] at hres
      exact absurd hres (findScan_ne_valueError _ _ _ _ _)
    | runtimeError =>
      exfalso
      rw [nth_prime_unfold n det ub h2,
        findScan_runtimeError_iff det n _ 2 0 (by omega)] at hres
      have hpf : primesFound det (ub n) = hitCount det (intRange 2 (ub n - 1).toNat) := rfl
      omega

theorem claim_C6_witness :
    (nth_prime_via_detector 2 (fun _ => 1) (fun _ => 10) = .valueError ↔ (2:ℤ) ≤ 0) ∧
    (nth_prime_via_detector 2 (fun _ => 1) (fun _ => 10) = .runtimeError ↔
      (primesFound (fun _ => 1) 10 : ℤ) < 2) ∧
    nth_prime_via_detector 1 (fun _ => 1) (fun _ => 10) = .ok 2 ∧
    ∃ m, nth_prime_via_detector 2 (fun _ => 1) (fun _ => 10) = .ok m :=
  ⟨(claim_C6 2 (fun _ => 1) (fun _ => 10)).1,
   (claim_C6 2 (fun _ => 1) (fun _ => 10)).2.1 (by norm_num),
   (claim_C6 1 (fun _ => 1) (fun _ => 10)).2.2.1 rfl,
   (claim_C6 2 (fun _ => 1) (fun _ => 10)).2.2.2 (by norm_num) (by decide)⟩

/-- Claim C7: for `n = 1` the finder returns 2 for every detector and bound
function, without consulting either. -/
theorem claim_C7 : ∀ (det ub : ℤ → ℤ), nth_prime_via_detector 1 det ub = .ok 2 :=
  fun _ _ => rfl

/-- Claim C8: the fast path — if some listed small prime divides `n ≥ 2`,
the verdict is 1 iff `n` is itself in the list, for every round count and
every randomness stream (no witness round runs). -/
theorem claim_C8 : ∀ (n : ℤ) (rand : ℕ → ℤ) (rounds : ℕ), 2 ≤ n →
    (∃ p ∈ smallPrimesZ, p ∣ n) →
    miller_rabin_is_prime rand n rounds = if n ∈ smallPrimesZ then 1 else 0 :=
  fun n rand rounds h2 hdvd => mr_fastpath n rand rounds h2 hdvd

theorem claim_C8_witness :
    miller_rabin_is_prime (fun _ => 5) 15 3 = 0 ∧
    miller_rabin_is_prime (fun _ => 5) 13 0 = 1 := by
  constructor
  · have h := claim_C8 15 (fun _ => 5) 3 (by norm_num) ⟨3, by decide, by decide⟩
    rw [if_neg (by decide)] at h
    exact h
  · have h := claim_C8 13 (fun _ => 5) 0 (by norm_num) ⟨13, by decide, by decide⟩
    rw [if_pos (by decide)] at h
    exact h

/-- Claim C9: each detector is total — it always returns a 0/1 verdict and
returns 0 (not prime) for every `k < 2`, including negative inputs. -/
theorem claim_C9 : ∀ k : ℤ,
    (wilson_is_prime k = 0 ∨ wilson_is_prime k = 1) ∧
    (trial_division_is_prime k = 0 ∨ trial_division_is_prime k = 1) ∧
    (∀ (rand : ℕ → ℤ) (rounds : ℕ),
      miller_rabin_is_prime rand k rounds = 0 ∨
        miller_rabin_is_prime rand k rounds = 1) ∧
    (k < 2 → wilson_is_prime k = 0 ∧ trial_division_is_prime k = 0 ∧
      ∀ (rand : ℕ → ℤ) (rounds : ℕ), miller_rabin_is_prime rand k rounds = 0) := by
  intro k
  refine ⟨wilson_zero_or_one k, trial_zero_or_one k,
    fun rand rounds => mr_zero_or_one rand k rounds, fun hk => ⟨?_, ?_, ?_⟩⟩
  · simp only [wilson_is_prime, if_pos hk]
  · simp only [trial_division_is_prime, if_pos hk]
  · intro rand rounds
    simp only [miller_rabin_is_prime, if_pos hk]

theorem claim_C9_witness :
    wilson_is_prime (-5) = 0 ∧ trial_division_is_prime (-5) = 0 ∧
    miller_rabin_is_prime (fun _ => 7) (-5) 3 = 0 := by
  obtain ⟨hw, ht, hm⟩ := (claim_C9 (-5)).2.2.2 (by norm_num)
  exact ⟨hw, ht, hm (fun _ => 7) 3⟩

/-- Claim C10: outside the documented domain, `upper_bound_nth_prime` wraps
around via Python negative indexing for `n` in `[-4, 0]` (returning 11, 7
and 2 at 0, −1 and −4) and raises IndexError exactly when `n ≤ -5`. -/
theorem claim_C10 :
    upper_bound_nth_prime 0 = some 11 ∧ upper_bound_nth_prime (-1) = some 7 ∧
    upper_bound_nth_prime (-4) = some 2 ∧
    ∀ n : ℤ, (upper_bound_nth_prime n = none ↔ n ≤ -5) := by
  refine ⟨?_, ?_, ?_, ?_⟩
  · rw [upper_bound_nth_prime, if_pos (by norm_num)]
    decide
  · rw [upper_bound_nth_prime, if_pos (by norm_num)]
    decide
  · rw [upper_bound_nth_prime, if_pos (by norm_num)]
    decide
  · intro n
    rw [upper_bound_nth_prime]
    by_cases h6 : n < 6
    · rw [if_pos h6]
      constructor
      · intro h
        by_contra hge
        push_neg at hge
        interval_cases n <;> exact absurd h (by decide)
      · intro h
        simp only [pyIndex, small_bounds, List.length_cons, List.length_nil]
        rw [if_pos (by omega : n - 1 < 0)]
        rw [if_neg (by push_cast; omega)]
    · rw [if_neg h6]
      constructor
      · intro hc; exact Option.noConfusion hc
      · intro hc; omega
